import Mathlib

/-
Verification of the dependency-resolution and BUILD-generation logic of
internal/npm_install/generate_build_file.js.

The script walks a node_modules tree, parses each package.json into a package
record, resolves every package's declared dependency names to package records
using nearest-ancestor lookup with root fallback (flattenDependencies), and
emits filegroup and nodejs_binary targets.  The embedding below translates
those functions to Lean:

- string helpers mirror the exact JavaScript string operations used
  (split('/'), path.posix.join, replace, startsWith/slice), implemented
  character-wise so that concrete instances evaluate inside the kernel;
- flattenDependencies is rendered as an explicit work-list interpreter
  flattenWork over a fuel parameter; the work list reproduces the source's
  depth-first order exactly (visit a record, then resolve and visit its
  dependencies group by group: dependencies, peerDependencies,
  optionalDependencies), and fuel models the unbounded JavaScript recursion.
  Records fetched from the package map are compared by their dir field,
  which is the map key and hence coincides with the source's object
  identity check pkg._dependencies.indexOf(dep);
- main is modelled as mainModel over an abstract already-enumerated tree
  (directory listing and file reads are external I/O); it returns the list
  of file writes performed together with an optional fatal error.
-/

namespace GenerateBuildFile

/-- Shape of the bin field of a package.json: absent, a single string, an
array (ignored by the source), or an object mapping names to paths. -/
inductive BinField where
  | missing
  | str (s : String)
  | arr (xs : List String)
  | obj (kvs : List (String × String))
deriving DecidableEq

/-- Fields of a package.json that the script reads.  Dependency objects are
kept as their key lists in declaration order, since the source only ever
iterates Object.keys of them. -/
structure PackageJson where
  name : String
  bin : BinField
  dependencies : List String
  peerDependencies : List String
  optionalDependencies : List String
deriving DecidableEq

/-- In-memory package record produced by parsePackage: the fields of the
parsed package.json plus the internal underscore attributes. -/
structure Package where
  dir : String
  isNested : Bool
  name : String
  dependencies : List String
  peerDependencies : List String
  optionalDependencies : List String
  executables : List (String × String)
deriving DecidableEq

/-- Character-level worker for splitting a string at '/' separators. -/
def splitSegsAux : List Char → List Char → List String
  | [], acc => [String.mk acc.reverse]
  | c :: cs, acc =>
    if c = '/' then String.mk acc.reverse :: splitSegsAux cs []
    else splitSegsAux cs (c :: acc)

/-- Mirror of the JavaScript expression dir.split('/'). -/
def splitSegs (s : String) : List String :=
  splitSegsAux s.data []

/-- Mirror of path.posix.join on plain relative segments (no segment is
empty, absolute, or a dot segment, so join is plain intercalation). -/
def joinSlash : List String → String
  | [] => ""
  | [s] => s
  | s :: rest => s ++ "/" ++ joinSlash rest

/-- Boolean test that a string starts with the given literal. -/
def strStartsWith (s pre : String) : Bool :=
  pre.data.isPrefixOf s.data

/-- Drop the first n characters of a string, as JavaScript slice(n). -/
def strDrop (s : String) (n : Nat) : String :=
  String.mk (s.data.drop n)

/-- Mirror of path.replace(/\\/g, '/'): every backslash becomes a slash. -/
def replaceBackslashes (s : String) : String :=
  String.mk (s.data.map (fun c => if c = '\\' then '/' else c))

/-- Substring test on character lists, used to mirror String.prototype
match with a literal pattern. -/
def listContainsSub (needle : List Char) : List Char → Bool
  | [] => needle.isPrefixOf []
  | c :: cs => needle.isPrefixOf (c :: cs) || listContainsSub needle cs

/-- Mirror of p.match(/\/node_modules\//): true when the path contains an
embedded node_modules segment. -/
def isNestedDir (p : String) : Bool :=
  listContainsSub "/node_modules/".data p.data

/-- Mirror of p.replace(new RegExp for a leading node_modules slash, ''). -/
def trimNodeModules (p : String) : String :=
  if strStartsWith p "node_modules/" then strDrop p 13 else p

/-- Mirror of cleanupBinPath: normalize backslashes to slashes and strip a
single leading dot-slash. -/
def cleanupBinPath (p : String) : String :=
  let q := replaceBackslashes p
  if strStartsWith q "./" then strDrop q 2 else q

/-- Mirror of the bin-to-executables transformation in parsePackage: an
array is ignored, a string maps the package dir to the cleaned path, and an
object maps each key to its cleaned path. -/
def parseBinEntries (dir : String) : BinField → List (String × String)
  | .missing => []
  | .arr _ => []
  | .str s => [(dir, cleanupBinPath s)]
  | .obj kvs => kvs.map (fun kv => (kv.1, cleanupBinPath kv.2))

/-- Mirror of parsePackage: derive dir and isNested from the path, copy the
declared dependency name lists, and populate executables only for
non-nested packages. -/
def parsePackage (p : String) (json : PackageJson) : Package :=
  let dir := trimNodeModules p
  let nested := isNestedDir p
  { dir := dir
    isNested := nested
    name := json.name
    dependencies := json.dependencies
    peerDependencies := json.peerDependencies
    optionalDependencies := json.optionalDependencies
    executables := if nested then [] else parseBinEntries dir json.bin }

/-- Failures that the resolution step can produce: the thrown
missing-required-dependency error, or exhaustion of the fuel that models
the unbounded JavaScript recursion. -/
inductive ResolutionError where
  | missingDep (name : String) (dir : String)
  | outOfFuel
deriving DecidableEq

/-- Worker for the nested-package lookup loop of flattenDependencies.  The
argument is the reversed segment list of the requiring record's dir, so
that dropping the last segment is structural recursion; each step forms
the candidate path segments/node_modules/name and consults the index. -/
def nestedLookupAux (idx : List Package) (name : String) : List String → Option Package
  | [] => none
  | s :: rest =>
    match idx.find? (fun q => q.dir == joinSlash ((s :: rest).reverse ++ ["node_modules", name])) with
    | some q => some q
    | none => nestedLookupAux idx name rest

/-- Mirror of the per-name lookup in flattenDependencies.findDeps: walk the
requiring dir's segments from longest to shortest looking for a nested
match, then fall back to a root-level match. -/
def lookupDep (idx : List Package) (dir name : String) : Option Package :=
  match nestedLookupAux idx name (splitSegs dir).reverse with
  | some q => some q
  | none => idx.find? (fun q => q.dir == name)

/-- Mirror of one findDeps call up to its recursion: look every declared
name up in order; a missing name throws when the group is required and is
dropped when it is optional. -/
def resolveNames (idx : List Package) (dir : String) (required : Bool) :
    List String → Except ResolutionError (List Package)
  | [] => .ok []
  | n :: ns =>
    match lookupDep idx dir n with
    | some q =>
      match resolveNames idx dir required ns with
      | .ok qs => .ok (q :: qs)
      | .error e => .error e
    | none =>
      if required then .error (.missingDep n dir)
      else resolveNames idx dir required ns

/-- Pending work of the resolution interpreter: either visit a record (the
entry of a flattenDependencies call) or resolve one declared-dependency
group of an already-visited record. -/
inductive Work where
  | visit (dep : Package)
  | group (dir : String) (required : Bool) (names : List String)

/-- Work-list rendering of flattenDependencies.  Visiting a record checks
the accumulated list by dir (the map identity), appends the record, and
queues its three declared groups; resolving a group performs all of its
lookups and queues visits for the found records ahead of the remaining
work, which reproduces the source's depth-first recursion order exactly. -/
def flattenWork (idx : List Package) : Nat → List Package → List Work → Except ResolutionError (List Package)
  | _, resolved, [] => .ok resolved
  | 0, _, _ :: _ => .error .outOfFuel
  | fuel + 1, resolved, .visit dep :: rest =>
    if resolved.any (fun q => q.dir == dep.dir) then
      flattenWork idx fuel resolved rest
    else
      flattenWork idx fuel (resolved ++ [dep])
        (.group dep.dir true dep.dependencies ::
          .group dep.dir true dep.peerDependencies ::
            .group dep.dir false dep.optionalDependencies :: rest)
  | fuel + 1, resolved, .group dir required names :: rest =>
    match resolveNames idx dir required names with
    | .error e => .error e
    | .ok found => flattenWork idx fuel resolved (found.map Work.visit ++ rest)

/-- Entry point of the resolution step for one record, as called by main
with the record itself as the initial dep. -/
def flattenDependencies (idx : List Package) (fuel : Nat) (resolved : List Package) (dep : Package) :
    Except ResolutionError (List Package) :=
  flattenWork idx fuel resolved [Work.visit dep]

/-- Mirror of the pkgs.forEach flatten loop in main: resolve every package
against the shared index, stopping at the first thrown error. -/
def flattenAll (idx : List Package) (fuel : Nat) :
    List Package → Except ResolutionError (List (Package × List Package))
  | [] => .ok []
  | p :: ps =>
    match flattenDependencies idx fuel [] p with
    | .error e => .error e
    | .ok r =>
      match flattenAll idx fuel ps with
      | .error e => .error e
      | .ok rest => .ok ((p, r) :: rest)

/-- Mirror of the srcs list of the aggregate filegroup printed by
printPackage: the package's own files target followed by the files targets
of its resolved dependencies, excluding the package itself and every
nested record. -/
def aggregateSrcs (pkg : Package) (resolved : List Package) : List String :=
  (":" ++ pkg.dir ++ "__files") ::
    ((resolved.filter (fun d => d != pkg)).filter (fun d => !d.isNested)).map
      (fun d => ":" ++ d.dir ++ "__files")

/-- One discovered package directory of the install tree, with the parse
result of its package.json; none stands for a file that JSON.parse throws
on. -/
structure TreeEntry where
  path : String
  json : Option PackageJson
deriving DecidableEq

/-- Mirror of the parsing pass of findPackages over the already-enumerated
package directories, aborting at the first malformed metadata file. -/
def scanTree : List TreeEntry → Except String (List Package)
  | [] => .ok []
  | e :: es =>
    match e.json with
    | none => .error e.path
    | some j =>
      match scanTree es with
      | .error p => .error p
      | .ok ps => .ok (parsePackage e.path j :: ps)

/-- Fatal conditions of main: a malformed metadata file during scanning or
a resolution failure. -/
inductive MainError where
  | parse (path : String)
  | resolution (e : ResolutionError)
deriving DecidableEq

/-- Document assembled by main before the manual fragment is considered:
the header, then one printed block per non-nested package, then one block
per scope. -/
def buildDocumentBase (printPkg : Package → List Package → String) (printScp : String → String)
    (header : String) (resolved : List (Package × List Package)) (scopes : List String) : String :=
  let afterPkgs := (resolved.filter (fun pr => !pr.1.isNested)).foldl
    (fun acc pr => acc ++ printPkg pr.1 pr.2) header
  scopes.foldl (fun acc s => acc ++ printScp s) afterPkgs

/-- Mirror of the manual_build_file_contents handling in main: a successful
read appends a blank-line separator and the fragment, and any read failure
is swallowed, leaving the base document untouched. -/
def buildDocument (printPkg : Package → List Package → String) (printScp : String → String)
    (header : String) (resolved : List (Package × List Package)) (scopes : List String)
    (manual : Except String String) : String :=
  match manual with
  | .ok m => buildDocumentBase printPkg printScp header resolved scopes ++ "\n\n" ++ m
  | .error _ => buildDocumentBase printPkg printScp header resolved scopes

/-- Mirror of main over the abstract inputs: scan, resolve, build and write
the document.  The first component lists the contents of the file writes
performed; the second is the fatal error, when one aborted the run. -/
def mainModel (printPkg : Package → List Package → String) (printScp : String → String)
    (header : String) (fuel : Nat) (tree : List TreeEntry) (scopes : List String)
    (manual : Except String String) : List String × Option MainError :=
  match scanTree tree with
  | .error p => ([], some (.parse p))
  | .ok pkgs =>
    match flattenAll pkgs fuel pkgs with
    | .error e => ([], some (.resolution e))
    | .ok resolved =>
      ([buildDocument printPkg printScp header resolved scopes manual], none)

/-- Candidate directories that the nearest-ancestor lookup tries for a
given requiring dir and dependency name, from the longest segment chain
down to the first segment: each is segments/node_modules/name.  This is
the specification-side reformulation used to characterize lookupDep. -/
def ancestorCandidates (dir name : String) : List String :=
  let segs := splitSegs dir
  ((List.range segs.length).reverse).map
    (fun k => joinSlash (segs.take (k + 1) ++ ["node_modules", name]))

/-- Total number of declared dependency names of a record, over its three
groups. -/
def namesTotal (p : Package) : Nat :=
  p.dependencies.length + p.peerDependencies.length + p.optionalDependencies.length

/-- Fuel cost assigned to one pending work item. -/
def workCost (idx : List Package) : Work → Nat
  | .visit d => if d ∈ idx then 1 else 4 + namesTotal d
  | .group _ _ names => 1 + names.length

/-- Fuel cost assigned to a work list. -/
def workListCost (idx : List Package) (work : List Work) : Nat :=
  (work.map (workCost idx)).sum

/-- Weight that one still-unresolved index entry contributes to the fuel
bound. -/
def idxWeight (idx : List Package) : Nat :=
  4 + (idx.map namesTotal).sum

/-- Number of index entries whose dir is not yet in the resolved list. -/
def unresolvedCount (idx resolved : List Package) : Nat :=
  (idx.filter (fun p => !resolved.any (fun q => q.dir == p.dir))).length

/-- Fuel bound under which flattenWork provably never exhausts its fuel. -/
def potential (idx resolved : List Package) (work : List Work) : Nat :=
  workListCost idx work + unresolvedCount idx resolved * idxWeight idx

/-- Record constructor for concrete examples: a root-level package with the
given dir and required dependency names. -/
def mkPkg (dir : String) (deps : List String) : Package :=
  { dir := dir
    isNested := false
    name := dir
    dependencies := deps
    peerDependencies := []
    optionalDependencies := []
    executables := [] }

/-- Two-package dependency cycle: A requires B and B requires A. -/
def cycA : Package := mkPkg "A" ["B"]

/-- Second half of the two-package cycle. -/
def cycB : Package := mkPkg "B" ["A"]

/-- Index holding the two-package cycle. -/
def cycIdx : List Package := [cycA, cycB]

/-- Root package A requiring a dependency named X. -/
def shadowA : Package := mkPkg "A" ["X"]

/-- Copy of X privately nested under A. -/
def shadowNestedX : Package :=
  { mkPkg "A/node_modules/X" [] with isNested := true }

/-- Root-level package named X. -/
def shadowRootX : Package := mkPkg "X" []

/-- Index holding both the nested and the root-level copy of X. -/
def shadowIdx : List Package := [shadowA, shadowNestedX, shadowRootX]

/-- Index holding only the root-level copy of X. -/
def shadowIdxRootOnly : List Package := [shadowA, shadowRootX]

/-- Package declaring only one optional dependency, which is missing. -/
def optPkg : Package :=
  { mkPkg "O" [] with optionalDependencies := ["nope"] }

/-- Package declaring one missing required dependency. -/
def badPkg : Package := mkPkg "M" ["nope"]

/-- Root package left requiring right, for the end-to-end example. -/
def exLeft : Package := mkPkg "left" ["right"]

/-- Root package right with no dependencies. -/
def exRight : Package := mkPkg "right" []

/-- Index of the end-to-end example. -/
def exIdx : List Package := [exLeft, exRight]

/-- Metadata whose declared name differs from its directory name, with a
string-form bin field. -/
def c7Json : PackageJson :=
  { name := "bar"
    bin := .str "./bin/x.js"
    dependencies := []
    peerDependencies := []
    optionalDependencies := [] }

/-- Restatement of the visited check of flattenWork as membership of the
dir in the resolved list's dir projection. -/
theorem any_dir_iff (resolved : List Package) (d : String) :
    resolved.any (fun q => q.dir == d) = true ↔ d ∈ resolved.map (fun q => q.dir) := by
  simp only [List.any_eq_true, beq_iff_eq, List.mem_map]

/-- Terminal step of flattenWork: an empty work list returns the
accumulated resolved list. -/
theorem flattenWork_nil (idx : List Package) (fuel : Nat) (resolved : List Package) :
    flattenWork idx fuel resolved [] = .ok resolved := by
  cases fuel <;> simp [flattenWork]

/-- Step of flattenWork on a record already present in the resolved list. -/
theorem flattenWork_visit_skip (idx : List Package) (fuel : Nat) (resolved : List Package)
    (dep : Package) (rest : List Work)
    (hc : resolved.any (fun q => q.dir == dep.dir) = true) :
    flattenWork idx (fuel + 1) resolved (Work.visit dep :: rest) =
      flattenWork idx fuel resolved rest := by
  simp [flattenWork, hc]

/-- Step of flattenWork on a record not yet in the resolved list: append it
and queue its three declared groups. -/
theorem flattenWork_visit_new (idx : List Package) (fuel : Nat) (resolved : List Package)
    (dep : Package) (rest : List Work)
    (hc : resolved.any (fun q => q.dir == dep.dir) = false) :
    flattenWork idx (fuel + 1) resolved (Work.visit dep :: rest) =
      flattenWork idx fuel (resolved ++ [dep])
        (Work.group dep.dir true dep.dependencies ::
          Work.group dep.dir true dep.peerDependencies ::
            Work.group dep.dir false dep.optionalDependencies :: rest) := by
  simp [flattenWork, hc]

/-- Step of flattenWork on a group whose lookups all succeed. -/
theorem flattenWork_group_ok (idx : List Package) (fuel : Nat) (resolved : List Package)
    (dir : String) (required : Bool) (names : List String) (rest : List Work)
    (found : List Package) (h : resolveNames idx dir required names = .ok found) :
    flattenWork idx (fuel + 1) resolved (Work.group dir required names :: rest) =
      flattenWork idx fuel resolved (found.map Work.visit ++ rest) := by
  simp [flattenWork, h]

/-- Step of flattenWork on a group containing a missing required name. -/
theorem flattenWork_group_error (idx : List Package) (fuel : Nat) (resolved : List Package)
    (dir : String) (required : Bool) (names : List String) (rest : List Work)
    (e : ResolutionError) (h : resolveNames idx dir required names = .error e) :
    flattenWork idx (fuel + 1) resolved (Work.group dir required names :: rest) = .error e := by
  simp [flattenWork, h]

/-- Resolution only ever appends to the resolved accumulator: a successful
run returns a list extending the input. -/
theorem flattenWork_isPrefix (idx : List Package) :
    ∀ (fuel : Nat) (resolved : List Package) (work : List Work) (r : List Package),
      flattenWork idx fuel resolved work = .ok r → resolved <+: r := by
  intro fuel
  induction fuel with
  | zero =>
    intro resolved work r h
    cases work with
    | nil =>
      rw [flattenWork_nil] at h
      cases h
      exact List.prefix_rfl
    | cons w ws => exact absurd h (by simp [flattenWork])
  | succ fuel ih =>
    intro resolved work r h
    cases work with
    | nil =>
      rw [flattenWork_nil] at h
      cases h
      exact List.prefix_rfl
    | cons w ws =>
      cases w with
      | visit dep =>
        rcases hc : resolved.any (fun q => q.dir == dep.dir) with _ | _
        · rw [flattenWork_visit_new idx fuel resolved dep ws hc] at h
          exact (List.prefix_append resolved [dep]).trans (ih _ _ _ h)
        · rw [flattenWork_visit_skip idx fuel resolved dep ws hc] at h
          exact ih _ _ _ h
      | group dir required names =>
        rcases hg : resolveNames idx dir required names with e | found
        case error =>
          rw [flattenWork_group_error idx fuel resolved dir required names ws e hg] at h
          exact Except.noConfusion h
        case ok =>
          rw [flattenWork_group_ok idx fuel resolved dir required names ws found hg] at h
          exact ih _ _ _ h

/-- Resolution preserves the no-duplicate-dirs invariant of the resolved
accumulator: the visited check guards every append. -/
theorem flattenWork_nodup (idx : List Package) :
    ∀ (fuel : Nat) (resolved : List Package) (work : List Work) (r : List Package),
      flattenWork idx fuel resolved work = .ok r →
      (resolved.map (fun q => q.dir)).Nodup → (r.map (fun q => q.dir)).Nodup := by
  intro fuel
  induction fuel with
  | zero =>
    intro resolved work r h hn
    cases work with
    | nil =>
      rw [flattenWork_nil] at h
      cases h
      exact hn
    | cons w ws => exact absurd h (by simp [flattenWork])
  | succ fuel ih =>
    intro resolved work r h hn
    cases work with
    | nil =>
      rw [flattenWork_nil] at h
      cases h
      exact hn
    | cons w ws =>
      cases w with
      | visit dep =>
        rcases hc : resolved.any (fun q => q.dir == dep.dir) with _ | _
        · rw [flattenWork_visit_new idx fuel resolved dep ws hc] at h
          refine ih _ _ _ h ?_
          have hnm : dep.dir ∉ resolved.map (fun q => q.dir) := by
            intro hm
            rw [(any_dir_iff resolved dep.dir).mpr hm] at hc
            exact Bool.noConfusion hc
          have hmap : ((resolved ++ [dep]).map (fun q => q.dir)) =
              resolved.map (fun q => q.dir) ++ [dep.dir] := by simp
          rw [hmap, List.nodup_append]
          refine ⟨hn, List.nodup_singleton _, ?_⟩
          intro x hx hx2
          simp only [List.mem_singleton] at hx2
          subst hx2
          exact hnm hx
        · rw [flattenWork_visit_skip idx fuel resolved dep ws hc] at h
          exact ih _ _ _ h hn
      | group dir required names =>
        rcases hg : resolveNames idx dir required names with e | found
        case error =>
          rw [flattenWork_group_error idx fuel resolved dir required names ws e hg] at h
          exact Except.noConfusion h
        case ok =>
          rw [flattenWork_group_ok idx fuel resolved dir required names ws found hg] at h
          exact ih _ _ _ h hn

/-- A nested-lookup hit is an entry of the index. -/
theorem nestedLookupAux_mem {idx : List Package} {name : String} :
    ∀ {rev : List String} {q : Package}, nestedLookupAux idx name rev = some q → q ∈ idx := by
  intro rev
  induction rev with
  | nil => intro q h; exact Option.noConfusion h
  | cons s rest ih =>
    intro q h
    simp only [nestedLookupAux] at h
    split at h
    · next p heq =>
      cases h
      exact List.mem_of_find?_eq_some heq
    · exact ih h

/-- A successful dependency lookup returns an entry of the index. -/
theorem lookupDep_mem {idx : List Package} {dir name : String} {q : Package}
    (h : lookupDep idx dir name = some q) : q ∈ idx := by
  unfold lookupDep at h
  split at h
  · next p heq =>
    cases h
    exact nestedLookupAux_mem heq
  · exact List.mem_of_find?_eq_some h

/-- Group resolution never reports fuel exhaustion: its only failure is the
missing-required-dependency error. -/
theorem resolveNames_ne_outOfFuel (idx : List Package) (dir : String) (required : Bool) :
    ∀ ns : List String, resolveNames idx dir required ns ≠ .error .outOfFuel := by
  intro ns
  induction ns with
  | nil => simp [resolveNames]
  | cons n ns ih =>
    simp only [resolveNames]
    split
    · split
      · simp
      · next e heq =>
        intro hc
        injection hc with hc2
        subst hc2
        exact ih heq
    · split
      · simp
      · exact ih

/-- Every record found by group resolution is an entry of the index. -/
theorem resolveNames_mem {idx : List Package} {dir : String} {required : Bool} :
    ∀ {ns : List String} {found : List Package},
      resolveNames idx dir required ns = .ok found → ∀ q ∈ found, q ∈ idx := by
  intro ns
  induction ns with
  | nil =>
    intro found h q hq
    cases h
    exact absurd hq (List.not_mem_nil q)
  | cons n ns ih =>
    intro found h q hq
    simp only [resolveNames] at h
    split at h
    · next p heq =>
      split at h
      · next qs heq2 =>
        cases h
        rcases List.mem_cons.mp hq with rfl | hq2
        · exact lookupDep_mem heq
        · exact ih heq2 q hq2
      · exact Except.noConfusion h
    · split at h
      · exact Except.noConfusion h
      · exact ih h q hq

/-- Group resolution returns at most one record per declared name. -/
theorem resolveNames_length {idx : List Package} {dir : String} {required : Bool} :
    ∀ {ns : List String} {found : List Package},
      resolveNames idx dir required ns = .ok found → found.length ≤ ns.length := by
  intro ns
  induction ns with
  | nil =>
    intro found h
    cases h
    exact Nat.le_refl 0
  | cons n ns ih =>
    intro found h
    simp only [resolveNames] at h
    split at h
    · split at h
      · next qs heq2 =>
        cases h
        exact Nat.succ_le_succ (ih heq2)
      · exact Except.noConfusion h
    · split at h
      · exact Except.noConfusion h
      · exact Nat.le_succ_of_le (ih h)

/-- Optional-group resolution never fails and simply drops every name whose
lookup misses, keeping the found records in declaration order. -/
theorem resolveNames_opt (idx : List Package) (dir : String) :
    ∀ ns : List String,
      resolveNames idx dir false ns = .ok (ns.filterMap (lookupDep idx dir)) := by
  intro ns
  induction ns with
  | nil => rfl
  | cons n ns ih =>
    simp only [resolveNames]
    rcases heq : lookupDep idx dir n with _ | q
    · simp only [List.filterMap_cons, heq]
      exact ih
    · simp only [List.filterMap_cons, heq, ih]

/-- Required-group resolution fails on the first missing name, reporting
that name together with the requiring record's directory. -/
theorem resolveNames_required_error (idx : List Package) (dir : String) :
    ∀ (pre : List String) (name : String) (post : List String),
      (∀ m ∈ pre, (lookupDep idx dir m).isSome) →
      lookupDep idx dir name = none →
      resolveNames idx dir true (pre ++ name :: post) = .error (.missingDep name dir) := by
  intro pre
  induction pre with
  | nil =>
    intro name post _ hmiss
    simp [resolveNames, hmiss]
  | cons m ms ih =>
    intro name post hall hmiss
    have hm := hall m (List.mem_cons_self m ms)
    obtain ⟨q, hq⟩ := Option.isSome_iff_exists.mp hm
    have hrec := ih name post (fun x hx => hall x (List.mem_cons_of_mem _ hx)) hmiss
    simp only [List.cons_append, resolveNames, hq]
    rw [List.append_eq, hrec]

/-- Filtering by a stronger predicate keeps at most as many elements. -/
theorem length_filter_le_of_imp {α : Type _} (l : List α) (p q : α → Bool)
    (h : ∀ x ∈ l, q x = true → p x = true) :
    (l.filter q).length ≤ (l.filter p).length := by
  induction l with
  | nil => exact Nat.le_refl 0
  | cons b t ih =>
    have ht := ih (fun x hx => h x (List.mem_cons_of_mem _ hx))
    cases hq : q b with
    | false =>
      cases hp : p b with
      | false =>
        simpa [List.filter_cons, hq, hp] using ht
      | true =>
        simp [List.filter_cons, hq, hp]
        omega
    | true =>
      have hpb := h b (List.mem_cons_self b t) hq
      simp [List.filter_cons, hq, hpb]
      omega

/-- Filtering by a strictly stronger predicate that rules out a present
element keeps strictly fewer elements. -/
theorem length_filter_lt_of_imp {α : Type _} (l : List α) (p q : α → Bool)
    (h : ∀ x ∈ l, q x = true → p x = true) (a : α) (ha : a ∈ l)
    (hpa : p a = true) (hqa : q a = false) :
    (l.filter q).length < (l.filter p).length := by
  induction l with
  | nil => exact absurd ha (List.not_mem_nil a)
  | cons b t ih =>
    have ht := length_filter_le_of_imp t p q (fun x hx => h x (List.mem_cons_of_mem _ hx))
    rcases List.mem_cons.mp ha with rfl | hat
    · simp [List.filter_cons, hpa, hqa]
      omega
    · have hlt := ih (fun x hx => h x (List.mem_cons_of_mem _ hx)) hat
      cases hq : q b with
      | false =>
        cases hp : p b with
        | false => simpa [List.filter_cons, hq, hp] using hlt
        | true =>
          simp [List.filter_cons, hq, hp]
          omega
      | true =>
        have hpb := h b (List.mem_cons_self b t) hq
        simp [List.filter_cons, hq, hpb]
        omega

/-- Work-list cost of a cons. -/
theorem workListCost_cons (idx : List Package) (w : Work) (work : List Work) :
    workListCost idx (w :: work) = workCost idx w + workListCost idx work := by
  simp [workListCost]

/-- Work-list cost of an append. -/
theorem workListCost_append (idx : List Package) (w1 w2 : List Work) :
    workListCost idx (w1 ++ w2) = workListCost idx w1 + workListCost idx w2 := by
  simp [workListCost]

/-- Visits of index entries cost one fuel unit each. -/
theorem workListCost_visits (idx : List Package) :
    ∀ l : List Package, (∀ p ∈ l, p ∈ idx) →
      workListCost idx (l.map Work.visit) = l.length := by
  intro l
  induction l with
  | nil => intro _; simp [workListCost]
  | cons p t ih =>
    intro h
    rw [List.map_cons, workListCost_cons, ih (fun x hx => h x (List.mem_cons_of_mem _ hx))]
    simp [workCost, h p (List.mem_cons_self p t)]
    omega

/-- Appending to the resolved list cannot increase the number of
unresolved index entries. -/
theorem unresolvedCount_append_le (idx resolved : List Package) (dep : Package) :
    unresolvedCount idx (resolved ++ [dep]) ≤ unresolvedCount idx resolved := by
  apply length_filter_le_of_imp
  intro x _ hx
  simp only [Bool.not_eq_true', List.any_append, Bool.or_eq_false_iff] at hx
  simp only [Bool.not_eq_true', hx.1]

/-- Appending a not-yet-resolved index entry strictly decreases the number
of unresolved index entries. -/
theorem unresolvedCount_append_lt (idx resolved : List Package) (dep : Package)
    (hmem : dep ∈ idx) (hc : resolved.any (fun q => q.dir == dep.dir) = false) :
    unresolvedCount idx (resolved ++ [dep]) < unresolvedCount idx resolved := by
  apply length_filter_lt_of_imp _ _ _ ?_ dep hmem ?_ ?_
  · intro x _ hx
    simp only [Bool.not_eq_true', List.any_append, Bool.or_eq_false_iff] at hx
    simp only [Bool.not_eq_true', hx.1]
  · simp [hc]
  · simp [List.any_append]

/-- A member record's declared-name count is bounded by the index weight. -/
theorem namesTotal_le_sum {idx : List Package} {d : Package} (h : d ∈ idx) :
    namesTotal d ≤ (idx.map namesTotal).sum :=
  List.single_le_sum (fun x _ => Nat.zero_le x) _ (List.mem_map_of_mem namesTotal h)

/-- Potential of a cons work list. -/
theorem potential_cons (idx resolved : List Package) (w : Work) (work : List Work) :
    potential idx resolved (w :: work) = workCost idx w + potential idx resolved work := by
  simp only [potential, workListCost_cons]
  ring

/-- Potential of an appended work list. -/
theorem potential_append (idx resolved : List Package) (w1 w2 : List Work) :
    potential idx resolved (w1 ++ w2) = workListCost idx w1 + potential idx resolved w2 := by
  simp only [potential, workListCost_append]
  ring

/-- Resolution never exhausts its fuel when the fuel exceeds the potential
of the pending work: the visited check lets every index entry be expanded
at most once, so the recursion of the source always terminates. -/
theorem flattenWork_ne_outOfFuel (idx : List Package) :
    ∀ (fuel : Nat) (resolved : List Package) (work : List Work),
      potential idx resolved work < fuel →
      flattenWork idx fuel resolved work ≠ .error .outOfFuel := by
  intro fuel
  induction fuel with
  | zero =>
    intro resolved work h
    exact absurd h (Nat.not_lt_zero _)
  | succ fuel ih =>
    intro resolved work h
    cases work with
    | nil =>
      rw [flattenWork_nil]
      exact fun hc => Except.noConfusion hc
    | cons w ws =>
      cases w with
      | visit dep =>
        have hcost : 1 ≤ workCost idx (Work.visit dep) := by
          simp only [workCost]
          split <;> omega
        rw [potential_cons] at h
        rcases hc : resolved.any (fun q => q.dir == dep.dir) with _ | _
        · rw [flattenWork_visit_new idx fuel resolved dep ws hc]
          apply ih
          have e1 : potential idx (resolved ++ [dep])
              (Work.group dep.dir true dep.dependencies ::
                Work.group dep.dir true dep.peerDependencies ::
                  Work.group dep.dir false dep.optionalDependencies :: ws)
              = 3 + namesTotal dep + potential idx (resolved ++ [dep]) ws := by
            simp only [potential_cons, workCost, namesTotal]
            ring
          have e2 : potential idx (resolved ++ [dep]) ws =
              workListCost idx ws + unresolvedCount idx (resolved ++ [dep]) * idxWeight idx :=
            rfl
          have e3 : potential idx resolved ws =
              workListCost idx ws + unresolvedCount idx resolved * idxWeight idx :=
            rfl
          by_cases hin : dep ∈ idx
          · have hu : unresolvedCount idx (resolved ++ [dep]) + 1 ≤ unresolvedCount idx resolved :=
              unresolvedCount_append_lt idx resolved dep hin hc
            have hmul : (unresolvedCount idx (resolved ++ [dep]) + 1) * idxWeight idx ≤
                unresolvedCount idx resolved * idxWeight idx :=
              Nat.mul_le_mul_right _ hu
            rw [Nat.succ_mul] at hmul
            have hW : namesTotal dep + 4 ≤ idxWeight idx := by
              have := namesTotal_le_sum hin
              simp only [idxWeight]
              omega
            have hcost1 : workCost idx (Work.visit dep) = 1 := by
              simp [workCost, hin]
            set x := unresolvedCount idx (resolved ++ [dep]) * idxWeight idx with hx
            set y := unresolvedCount idx resolved * idxWeight idx with hy
            omega
          · have hu : unresolvedCount idx (resolved ++ [dep]) ≤ unresolvedCount idx resolved :=
              unresolvedCount_append_le idx resolved dep
            have hmul : unresolvedCount idx (resolved ++ [dep]) * idxWeight idx ≤
                unresolvedCount idx resolved * idxWeight idx :=
              Nat.mul_le_mul_right _ hu
            have hcost1 : workCost idx (Work.visit dep) = 4 + namesTotal dep := by
              simp [workCost, hin]
            set x := unresolvedCount idx (resolved ++ [dep]) * idxWeight idx with hx
            set y := unresolvedCount idx resolved * idxWeight idx with hy
            omega
        · rw [flattenWork_visit_skip idx fuel resolved dep ws hc]
          apply ih
          omega
      | group dir required names =>
        rcases hg : resolveNames idx dir required names with e | found
        · rw [flattenWork_group_error idx fuel resolved dir required names ws e hg]
          intro hcontra
          injection hcontra with he
          subst he
          exact resolveNames_ne_outOfFuel idx dir required names hg
        · rw [flattenWork_group_ok idx fuel resolved dir required names ws found hg]
          apply ih
          rw [potential_cons] at h
          have hwc : workCost idx (Work.group dir required names) = 1 + names.length := rfl
          have h1 : workListCost idx (found.map Work.visit) = found.length :=
            workListCost_visits idx found (resolveNames_mem hg)
          have h2 : found.length ≤ names.length := resolveNames_length hg
          rw [potential_append, h1]
          omega

/-- A run started on an empty accumulator puts the visited record itself
first: the source appends dep before resolving any of its dependencies. -/
theorem flattenDependencies_ok_cons (idx : List Package) (fuel : Nat) (pkg : Package)
    (r : List Package) (h : flattenDependencies idx fuel [] pkg = .ok r) :
    ∃ rest, r = pkg :: rest := by
  cases fuel with
  | zero => exact Except.noConfusion h
  | succ fuel =>
    unfold flattenDependencies at h
    rw [flattenWork_visit_new idx fuel [] pkg [] (by simp)] at h
    obtain ⟨t, ht⟩ := flattenWork_isPrefix idx _ _ _ _ h
    refine ⟨t, ?_⟩
    simpa using ht.symm

/-- Visiting a record whose dir is already in the accumulator returns the
accumulator unchanged. -/
theorem flattenDependencies_already (idx : List Package) (fuel : Nat) (resolved : List Package)
    (pkg : Package) (h : pkg.dir ∈ resolved.map (fun q => q.dir)) :
    flattenDependencies idx (fuel + 1) resolved pkg = .ok resolved := by
  unfold flattenDependencies
  rw [flattenWork_visit_skip idx fuel resolved pkg [] ((any_dir_iff resolved pkg.dir).mpr h)]
  exact flattenWork_nil idx fuel resolved

/-- Chained option search over an appended list. -/
theorem findSomeAppend {α β : Type _} (f : α → Option β) :
    ∀ l1 l2 : List α,
      (l1 ++ l2).findSome? f =
        match l1.findSome? f with
        | some b => some b
        | none => l2.findSome? f := by
  intro l1 l2
  induction l1 with
  | nil => simp [List.findSome?]
  | cons a t ih =>
    simp only [List.cons_append, List.findSome?_cons]
    cases f a with
    | none => exact ih
    | some b => rfl

/-- Nested lookup equals the first hit of the option search over the
descending candidate list formed from the reversed segments. -/
theorem nestedLookupAux_eq_findSome (idx : List Package) (name : String) :
    ∀ rev : List String,
      nestedLookupAux idx name rev =
        (((List.range rev.length).reverse).map
            (fun k => joinSlash (rev.reverse.take (k + 1) ++ ["node_modules", name]))).findSome?
          (fun c => idx.find? (fun q => q.dir == c)) := by
  intro rev
  induction rev with
  | nil => simp [nestedLookupAux]
  | cons s rest ih =>
    have hrange : (List.range (rest.length + 1)).reverse =
        rest.length :: (List.range rest.length).reverse := by
      rw [List.range_succ, List.reverse_append]
      rfl
    have htake : (s :: rest).reverse.take (rest.length + 1) = (s :: rest).reverse := by
      have hlen : (s :: rest).reverse.length = rest.length + 1 := by
        simp
      rw [← hlen, List.take_length]
    simp only [List.length_cons, hrange, List.map_cons, List.findSome?_cons, htake]
    have hmap : ((List.range rest.length).reverse.map
          (fun k => joinSlash ((s :: rest).reverse.take (k + 1) ++ ["node_modules", name]))) =
        ((List.range rest.length).reverse.map
          (fun k => joinSlash (rest.reverse.take (k + 1) ++ ["node_modules", name]))) := by
      apply List.map_congr_left
      intro k hk
      have hk2 : k < rest.length := List.mem_range.mp (List.mem_reverse.mp hk)
      have hst : (s :: rest).reverse.take (k + 1) = rest.reverse.take (k + 1) := by
        rw [List.reverse_cons, List.take_append_of_le_length]
        simpa using hk2
      rw [hst]
    rw [hmap]
    simp only [nestedLookupAux]
    cases hfind : idx.find?
        (fun q => q.dir == joinSlash ((s :: rest).reverse ++ ["node_modules", name])) with
    | none => exact ih
    | some q => rfl

/-- The per-name lookup selects the first present candidate among the
descending nested candidates followed by the root-level name. -/
theorem lookupDep_eq_candidates (idx : List Package) (dir name : String) :
    lookupDep idx dir name =
      (ancestorCandidates dir name ++ [name]).findSome?
        (fun c => idx.find? (fun q => q.dir == c)) := by
  rw [findSomeAppend]
  have hc : ancestorCandidates dir name =
      ((List.range (splitSegs dir).reverse.length).reverse).map
        (fun k => joinSlash ((splitSegs dir).reverse.reverse.take (k + 1) ++
          ["node_modules", name])) := by
    simp [ancestorCandidates]
  unfold lookupDep
  rw [nestedLookupAux_eq_findSome, ← hc]
  cases hns : (ancestorCandidates dir name).findSome?
      (fun c => idx.find? (fun q => q.dir == c)) with
  | none =>
    cases hq : idx.find? (fun q => q.dir == name) <;> simp [List.findSome?, hq]
  | some q => rfl

/-- Visiting a fresh record whose first required group contains a missing
name fails with the missing-dependency error before anything else runs. -/
theorem flattenDependencies_missing_required (idx : List Package) (fuel : Nat)
    (resolved : List Package) (dep : Package) (pre : List String) (name : String)
    (post : List String)
    (hnm : dep.dir ∉ resolved.map (fun q => q.dir))
    (hdeps : dep.dependencies = pre ++ name :: post)
    (hall : ∀ m ∈ pre, (lookupDep idx dep.dir m).isSome)
    (hmiss : lookupDep idx dep.dir name = none) :
    flattenDependencies idx (fuel + 2) resolved dep = .error (.missingDep name dep.dir) := by
  have hc : resolved.any (fun q => q.dir == dep.dir) = false := by
    rcases h2 : resolved.any (fun q => q.dir == dep.dir) with _ | _
    · rfl
    · exact absurd ((any_dir_iff resolved dep.dir).mp h2) hnm
  have herr : resolveNames idx dep.dir true dep.dependencies =
      .error (.missingDep name dep.dir) := by
    rw [hdeps]
    exact resolveNames_required_error idx dep.dir pre name post hall hmiss
  unfold flattenDependencies
  show flattenWork idx (fuel + 1 + 1) resolved [Work.visit dep] = _
  rw [flattenWork_visit_new idx (fuel + 1) resolved dep [] hc,
    flattenWork_group_error idx fuel (resolved ++ [dep]) dep.dir true dep.dependencies _ _ herr]

/-- Visiting a fresh record with no required names and a missing name in
its peer group fails with that name and the record's directory. -/
theorem flattenDependencies_missing_peer (idx : List Package) (fuel : Nat)
    (resolved : List Package) (dep : Package) (pre : List String) (name : String)
    (post : List String)
    (hnm : dep.dir ∉ resolved.map (fun q => q.dir))
    (hdeps : dep.dependencies = [])
    (hpeer : dep.peerDependencies = pre ++ name :: post)
    (hall : ∀ m ∈ pre, (lookupDep idx dep.dir m).isSome)
    (hmiss : lookupDep idx dep.dir name = none) :
    flattenDependencies idx (fuel + 3) resolved dep = .error (.missingDep name dep.dir) := by
  have hc : resolved.any (fun q => q.dir == dep.dir) = false := by
    rcases h2 : resolved.any (fun q => q.dir == dep.dir) with _ | _
    · rfl
    · exact absurd ((any_dir_iff resolved dep.dir).mp h2) hnm
  have herr : resolveNames idx dep.dir true dep.peerDependencies =
      .error (.missingDep name dep.dir) := by
    rw [hpeer]
    exact resolveNames_required_error idx dep.dir pre name post hall hmiss
  unfold flattenDependencies
  show flattenWork idx (fuel + 2 + 1) resolved [Work.visit dep] = _
  rw [flattenWork_visit_new idx (fuel + 2) resolved dep [] hc, hdeps]
  show flattenWork idx (fuel + 1 + 1) _ _ = _
  rw [flattenWork_group_ok idx (fuel + 1) (resolved ++ [dep]) dep.dir true [] _ [] rfl]
  simp only [List.map_nil, List.nil_append]
  rw [flattenWork_group_error idx fuel (resolved ++ [dep]) dep.dir true dep.peerDependencies _ _ herr]

/-- Visiting a fresh record all of whose declared names are optional and
missing succeeds, appending only the record itself. -/
theorem flattenDependencies_optional_missing (idx : List Package) (fuel : Nat)
    (resolved : List Package) (dep : Package)
    (hnm : dep.dir ∉ resolved.map (fun q => q.dir))
    (h1 : dep.dependencies = []) (h2 : dep.peerDependencies = [])
    (h3 : ∀ n ∈ dep.optionalDependencies, lookupDep idx dep.dir n = none) :
    flattenDependencies idx (fuel + 4) resolved dep = .ok (resolved ++ [dep]) := by
  have hc : resolved.any (fun q => q.dir == dep.dir) = false := by
    rcases hb : resolved.any (fun q => q.dir == dep.dir) with _ | _
    · rfl
    · exact absurd ((any_dir_iff resolved dep.dir).mp hb) hnm
  have hopt : resolveNames idx dep.dir false dep.optionalDependencies = .ok [] := by
    rw [resolveNames_opt, List.filterMap_eq_nil_iff.mpr h3]
  unfold flattenDependencies
  show flattenWork idx (fuel + 3 + 1) resolved [Work.visit dep] = _
  rw [flattenWork_visit_new idx (fuel + 3) resolved dep [] hc, h1, h2]
  show flattenWork idx (fuel + 2 + 1) _ _ = _
  rw [flattenWork_group_ok idx (fuel + 2) (resolved ++ [dep]) dep.dir true [] _ [] rfl]
  simp only [List.map_nil, List.nil_append]
  show flattenWork idx (fuel + 1 + 1) _ _ = _
  rw [flattenWork_group_ok idx (fuel + 1) (resolved ++ [dep]) dep.dir true [] _ [] rfl]
  simp only [List.map_nil, List.nil_append]
  rw [flattenWork_group_ok idx fuel (resolved ++ [dep]) dep.dir false
    dep.optionalDependencies _ [] hopt]
  simp only [List.map_nil, List.nil_append]
  exact flattenWork_nil idx fuel (resolved ++ [dep])

/-- Files-target labels are injective in the directory. -/
theorem filesLabel_inj {a b : String}
    (h : ":" ++ a ++ "__files" = ":" ++ b ++ "__files") : a = b := by
  have hd := congrArg String.data h
  simp only [String.data_append] at hd
  exact String.ext (List.append_cancel_left (List.append_cancel_right hd))

/-- Aggregate srcs restated with a single propositional filter. -/
theorem aggregateSrcs_eq (pkg : Package) (resolved : List Package) :
    aggregateSrcs pkg resolved =
      (":" ++ pkg.dir ++ "__files") ::
        (resolved.filter (fun d => decide (d ≠ pkg ∧ d.isNested = false))).map
          (fun d => ":" ++ d.dir ++ "__files") := by
  unfold aggregateSrcs
  rw [List.filter_filter]
  have hf : List.filter (fun a => !a.isNested && a != pkg) resolved =
      List.filter (fun d => decide (d ≠ pkg ∧ d.isNested = false)) resolved := by
    apply List.filter_congr
    intro d _
    by_cases h1 : d = pkg <;> cases h2 : d.isNested <;> simp [h1, h2]
  rw [hf]

/-- With distinct dirs and the package present in the resolved list, the
aggregate srcs list holds the package's own files target exactly once and
no files target of a nested record. -/
theorem aggregateSrcs_spec (pkg : Package) (resolved : List Package)
    (hnodup : (resolved.map (fun q => q.dir)).Nodup)
    (hmem : pkg ∈ resolved) (hroot : pkg.isNested = false) :
    List.count (":" ++ pkg.dir ++ "__files") (aggregateSrcs pkg resolved) = 1 ∧
    ∀ d ∈ resolved, d.isNested = true →
      (":" ++ d.dir ++ "__files") ∉ aggregateSrcs pkg resolved := by
  have inj := List.inj_on_of_nodup_map hnodup
  have htail : (":" ++ pkg.dir ++ "__files") ∉
      ((resolved.filter (fun d => d != pkg)).filter (fun d => !d.isNested)).map
        (fun d => ":" ++ d.dir ++ "__files") := by
    intro hm
    obtain ⟨d, hdmem, hdeq⟩ := List.mem_map.mp hm
    have hdir := filesLabel_inj hdeq
    have hd2 := (List.mem_filter.mp hdmem).1
    have hd3 := (List.mem_filter.mp hd2).1
    have hdne := (List.mem_filter.mp hd2).2
    rw [inj hd3 hmem hdir] at hdne
    simp at hdne
  constructor
  · show List.count (":" ++ pkg.dir ++ "__files")
      ((":" ++ pkg.dir ++ "__files") ::
        ((resolved.filter (fun d => d != pkg)).filter (fun d => !d.isNested)).map
          (fun d => ":" ++ d.dir ++ "__files")) = 1
    rw [List.count_cons_self, List.count_eq_zero.mpr htail]
  · intro d hd hnested hcontra
    rcases List.mem_cons.mp hcontra with heq | hmtail
    · have hdir := filesLabel_inj heq
      rw [inj hd hmem hdir] at hnested
      rw [hroot] at hnested
      exact Bool.noConfusion hnested
    · obtain ⟨d2, hd2mem, hd2eq⟩ := List.mem_map.mp hmtail
      have hflat := (List.mem_filter.mp hd2mem).2
      have hd2in := (List.mem_filter.mp (List.mem_filter.mp hd2mem).1).1
      have hdir := filesLabel_inj hd2eq
      rw [inj hd2in hd hdir] at hflat
      rw [hnested] at hflat
      exact Bool.noConfusion hflat

/-- Backslash normalization leaves no backslash in the path. -/
theorem replaceBackslashes_no_backslash (s : String) :
    ∀ c ∈ (replaceBackslashes s).data, c ≠ '\\' := by
  intro c hc
  simp only [replaceBackslashes] at hc
  obtain ⟨x, _, hx⟩ := List.mem_map.mp hc
  by_cases h : x = '\\'
  · rw [if_pos h] at hx
    rw [← hx]
    decide
  · rw [if_neg h] at hx
    rw [← hx]
    exact h

/-- Cleaned bin paths contain no backslash. -/
theorem cleanupBinPath_no_backslash (s : String) :
    ∀ c ∈ (cleanupBinPath s).data, c ≠ '\\' := by
  intro c hc
  simp only [cleanupBinPath] at hc
  split at hc
  · exact replaceBackslashes_no_backslash s c
      (List.drop_subset 2 (replaceBackslashes s).data hc)
  · exact replaceBackslashes_no_backslash s c hc

/-- C1: for every record and declared name, resolution looks the name up by
forming the candidate paths segments/node_modules/name from the requiring
record's directory segments, dropping the last segment on each failure, and
selects the first candidate present in the package-by-dir index, with the
root-level name tried only after every nested candidate; in particular a
copy of X nested under an ancestor shadows a root-level X, and the
root-level X is selected once no nested candidate matches. -/
theorem c1_nearest_ancestor_shadowing :
    (∀ (idx : List Package) (dir name : String),
        lookupDep idx dir name =
          (ancestorCandidates dir name ++ [name]).findSome?
            (fun c => idx.find? (fun q => q.dir == c))) ∧
    lookupDep shadowIdx "A" "X" = some shadowNestedX ∧
    lookupDep shadowIdxRootOnly "A" "X" = some shadowRootX :=
  ⟨lookupDep_eq_candidates, rfl, rfl⟩

/-- C2: a name of a required group (dependencies or peerDependencies) that
neither the nearest-ancestor walk nor the root lookup finds makes
resolution fail with an error naming the missing name and the requiring
record's directory, while a missing name declared only among
optionalDependencies produces no error and adds no record to the resolved
list. -/
theorem c2_required_fatal_optional_silent :
    (∀ (idx : List Package) (dir : String) (pre : List String) (name : String)
        (post : List String),
        (∀ m ∈ pre, (lookupDep idx dir m).isSome) →
        lookupDep idx dir name = none →
        resolveNames idx dir true (pre ++ name :: post) =
          .error (.missingDep name dir)) ∧
    (∀ (idx : List Package) (dir : String) (ns : List String),
        resolveNames idx dir false ns = .ok (ns.filterMap (lookupDep idx dir))) ∧
    (∀ (idx : List Package) (fuel : Nat) (resolved : List Package) (dep : Package)
        (pre : List String) (name : String) (post : List String),
        dep.dir ∉ resolved.map (fun q => q.dir) →
        dep.dependencies = pre ++ name :: post →
        (∀ m ∈ pre, (lookupDep idx dep.dir m).isSome) →
        lookupDep idx dep.dir name = none →
        flattenDependencies idx (fuel + 2) resolved dep =
          .error (.missingDep name dep.dir)) ∧
    (∀ (idx : List Package) (fuel : Nat) (resolved : List Package) (dep : Package)
        (pre : List String) (name : String) (post : List String),
        dep.dir ∉ resolved.map (fun q => q.dir) →
        dep.dependencies = [] →
        dep.peerDependencies = pre ++ name :: post →
        (∀ m ∈ pre, (lookupDep idx dep.dir m).isSome) →
        lookupDep idx dep.dir name = none →
        flattenDependencies idx (fuel + 3) resolved dep =
          .error (.missingDep name dep.dir)) ∧
    (∀ (idx : List Package) (fuel : Nat) (resolved : List Package) (dep : Package),
        dep.dir ∉ resolved.map (fun q => q.dir) →
        dep.dependencies = [] → dep.peerDependencies = [] →
        (∀ n ∈ dep.optionalDependencies, lookupDep idx dep.dir n = none) →
        flattenDependencies idx (fuel + 4) resolved dep = .ok (resolved ++ [dep])) := by
  refine ⟨?_, ?_, ?_, ?_, ?_⟩
  · intro idx dir pre name post hall hmiss
    exact resolveNames_required_error idx dir pre name post hall hmiss
  · intro idx dir ns
    exact resolveNames_opt idx dir ns
  · intro idx fuel resolved dep pre name post hnm hdeps hall hmiss
    exact flattenDependencies_missing_required idx fuel resolved dep pre name post
      hnm hdeps hall hmiss
  · intro idx fuel resolved dep pre name post hnm hdeps hpeer hall hmiss
    exact flattenDependencies_missing_peer idx fuel resolved dep pre name post
      hnm hdeps hpeer hall hmiss
  · intro idx fuel resolved dep hnm h1 h2 h3
    exact flattenDependencies_optional_missing idx fuel resolved dep hnm h1 h2 h3

/-- Witness for C2: a concrete missing required dependency aborts with the
error naming it, and the same missing name declared only optionally
resolves to the record alone without error. -/
theorem c2_witness :
    lookupDep [badPkg] "M" "nope" = none ∧
    flattenDependencies [badPkg] 2 [] badPkg = .error (.missingDep "nope" "M") ∧
    flattenDependencies [optPkg] 4 [] optPkg = .ok [optPkg] := by
  refine ⟨rfl, ?_, ?_⟩
  · exact c2_required_fatal_optional_silent.2.2.1 [badPkg] 0 [] badPkg [] "nope" []
      (by simp) rfl (by simp) rfl
  · exact c2_required_fatal_optional_silent.2.2.2.2 [optPkg] 0 [] optPkg
      (by simp) rfl rfl
      (fun n hn => by rw [List.mem_singleton.mp hn]; rfl)

/-- C3: a successful resolution run started from an accumulator with
distinct dirs yields a list with no repeated dir and no repeated record;
in particular every run started from the empty accumulator does. -/
theorem c3_no_duplicates :
    (∀ (idx : List Package) (fuel : Nat) (resolved : List Package) (work : List Work)
        (r : List Package),
        flattenWork idx fuel resolved work = .ok r →
        (resolved.map (fun q => q.dir)).Nodup →
        (r.map (fun q => q.dir)).Nodup ∧ r.Nodup) ∧
    (∀ (idx : List Package) (fuel : Nat) (pkg : Package) (r : List Package),
        flattenDependencies idx fuel [] pkg = .ok r →
        (r.map (fun q => q.dir)).Nodup ∧ r.Nodup) := by
  constructor
  · intro idx fuel resolved work r h hn
    have h1 := flattenWork_nodup idx fuel resolved work r h hn
    exact ⟨h1, List.Nodup.of_map _ h1⟩
  · intro idx fuel pkg r h
    have h1 := flattenWork_nodup idx fuel [] [Work.visit pkg] r h (by simp)
    exact ⟨h1, List.Nodup.of_map _ h1⟩

/-- Witness for C3: the concrete cycle run yields a duplicate-free list. -/
theorem c3_witness :
    flattenDependencies cycIdx 20 [] cycA = .ok [cycA, cycB] ∧
    (([cycA, cycB].map (fun q => q.dir)).Nodup ∧ [cycA, cycB].Nodup) :=
  ⟨rfl, c3_no_duplicates.2 cycIdx 20 cycA [cycA, cycB] rfl⟩

/-- C4: resolution terminates on every finite index: any fuel above the
potential of the initial work is never exhausted; in particular the
two-package declared cycle resolves completely, each record appearing
exactly once in the other's resolved list. -/
theorem c4_cycle_terminates :
    (∀ (idx : List Package) (fuel : Nat) (resolved : List Package) (dep : Package),
        potential idx resolved [Work.visit dep] < fuel →
        flattenDependencies idx fuel resolved dep ≠ .error .outOfFuel) ∧
    flattenDependencies cycIdx 20 [] cycA = .ok [cycA, cycB] ∧
    flattenDependencies cycIdx 20 [] cycB = .ok [cycB, cycA] ∧
    List.count cycB [cycA, cycB] = 1 ∧
    List.count cycA [cycB, cycA] = 1 := by
  refine ⟨?_, rfl, rfl, by decide, by decide⟩
  intro idx fuel resolved dep h
  exact flattenWork_ne_outOfFuel idx fuel resolved [Work.visit dep] h

/-- Witness for C4: the cycle index with fuel 20 is above its potential and
the run indeed does not exhaust its fuel. -/
theorem c4_witness :
    potential cycIdx [] [Work.visit cycA] < 20 ∧
    flattenDependencies cycIdx 20 [] cycA ≠ .error .outOfFuel :=
  ⟨by decide, c4_cycle_terminates.1 cycIdx 20 [] cycA (by decide)⟩

/-- C5: for a non-nested package, the aggregate target's srcs list is the
package's own files target followed by the files targets of exactly the
resolved records that are neither the package itself nor nested, in
resolved order; the own files target occurs exactly once and no nested
record's files target occurs. -/
theorem c5_aggregate_inputs :
    ∀ (idx : List Package) (fuel : Nat) (pkg : Package) (resolved : List Package),
      pkg.isNested = false →
      flattenDependencies idx fuel [] pkg = .ok resolved →
      (aggregateSrcs pkg resolved =
          (":" ++ pkg.dir ++ "__files") ::
            (resolved.filter (fun d => decide (d ≠ pkg ∧ d.isNested = false))).map
              (fun d => ":" ++ d.dir ++ "__files")) ∧
      List.count (":" ++ pkg.dir ++ "__files") (aggregateSrcs pkg resolved) = 1 ∧
      (∀ d ∈ resolved, d.isNested = true →
          (":" ++ d.dir ++ "__files") ∉ aggregateSrcs pkg resolved) := by
  intro idx fuel pkg resolved hroot h
  have hnodup := flattenWork_nodup idx fuel [] [Work.visit pkg] resolved h (by simp)
  obtain ⟨rest, hr⟩ := flattenDependencies_ok_cons idx fuel pkg resolved h
  have hmem : pkg ∈ resolved := by
    rw [hr]
    exact List.mem_cons_self pkg rest
  have hspec := aggregateSrcs_spec pkg resolved hnodup hmem hroot
  exact ⟨aggregateSrcs_eq pkg resolved, hspec.1, hspec.2⟩

/-- Witness for C5: the end-to-end example's aggregate srcs for left. -/
theorem c5_witness :
    flattenDependencies exIdx 20 [] exLeft = .ok [exLeft, exRight] ∧
    aggregateSrcs exLeft [exLeft, exRight] = [":left__files", ":right__files"] ∧
    List.count (":" ++ exLeft.dir ++ "__files") (aggregateSrcs exLeft [exLeft, exRight]) = 1 :=
  ⟨rfl, rfl, (c5_aggregate_inputs exIdx 20 exLeft [exLeft, exRight] rfl rfl).2.1⟩

/-- C6: resolution is idempotent: a second run over a package against the
same index leaves the resolved list of a completed first run unchanged. -/
theorem c6_idempotent :
    ∀ (idx : List Package) (fuel1 fuel2 : Nat) (pkg : Package) (r : List Package),
      flattenDependencies idx fuel1 [] pkg = .ok r →
      flattenDependencies idx (fuel2 + 1) r pkg = .ok r := by
  intro idx fuel1 fuel2 pkg r h
  obtain ⟨rest, hr⟩ := flattenDependencies_ok_cons idx fuel1 pkg r h
  apply flattenDependencies_already
  rw [hr]
  simp

/-- Witness for C6: re-running the cycle example returns its list as is. -/
theorem c6_witness :
    flattenDependencies cycIdx 20 [] cycA = .ok [cycA, cycB] ∧
    flattenDependencies cycIdx 20 [cycA, cycB] cycA = .ok [cycA, cycB] :=
  ⟨rfl, c6_idempotent cycIdx 20 19 cycA [cycA, cycB] rfl⟩

/-- C7 counterexample: with a string-form bin the source keys the
executables map by the package's directory, not by its declared name
field, so a package whose name differs from its directory refutes the
claim as stated. -/
theorem c7_counterexample :
    (parsePackage "node_modules/foo" c7Json).executables = [("foo", "bin/x.js")] ∧
    (parsePackage "node_modules/foo" c7Json).name = "bar" ∧
    (parsePackage "node_modules/foo" c7Json).executables.map Prod.fst ≠
      [(parsePackage "node_modules/foo" c7Json).name] := by
  refine ⟨rfl, rfl, ?_⟩
  intro h
  have h2 : (["foo"] : List String) = ["bar"] := h
  exact absurd h2 (by decide)

/-- C7 amended: a non-nested package with a string-form bin gets exactly
one executables entry keyed by the package's directory with the normalized
path; an object form maps each declared key to its normalized path; nested
packages always get an empty executables mapping; normalization replaces
every backslash by a slash and removes one leading dot-slash. -/
theorem c7_executables_amended :
    ∀ (p : String) (j : PackageJson) (s : String) (entries : List (String × String)),
      (isNestedDir p = true → (parsePackage p j).executables = []) ∧
      (isNestedDir p = false → j.bin = .str s →
          (parsePackage p j).executables = [((parsePackage p j).dir, cleanupBinPath s)]) ∧
      (isNestedDir p = false → j.bin = .obj entries →
          (parsePackage p j).executables =
            entries.map (fun kv => (kv.1, cleanupBinPath kv.2))) ∧
      (∀ c ∈ (cleanupBinPath s).data, c ≠ '\\') ∧
      (strStartsWith (replaceBackslashes s) "./" = true →
          (cleanupBinPath s).data = (replaceBackslashes s).data.drop 2) := by
  intro p j s entries
  refine ⟨?_, ?_, ?_, cleanupBinPath_no_backslash s, ?_⟩
  · intro h
    simp [parsePackage, h]
  · intro h hb
    simp [parsePackage, h, hb, parseBinEntries]
  · intro h hb
    simp [parsePackage, h, hb, parseBinEntries]
  · intro h
    simp [cleanupBinPath, h, strDrop]

/-- Witness for C7 amended: a nested package gets no executables, and the
concrete string-form package is keyed by its directory. -/
theorem c7_amended_witness :
    isNestedDir "node_modules/a/node_modules/b" = true ∧
    (parsePackage "node_modules/a/node_modules/b" c7Json).executables = [] ∧
    (parsePackage "node_modules/foo" c7Json).executables =
      [((parsePackage "node_modules/foo" c7Json).dir, cleanupBinPath "./bin/x.js")] :=
  ⟨rfl,
    (c7_executables_amended "node_modules/a/node_modules/b" c7Json "x" []).1 rfl,
    (c7_executables_amended "node_modules/foo" c7Json "./bin/x.js" []).2.1 rfl rfl⟩

/-- C8: a fatal condition, during scanning or during resolution, makes the
run abort before any write: the observable output is all-or-nothing, a
single final document write or none at all. -/
theorem c8_all_or_nothing :
    ∀ (printPkg : Package → List Package → String) (printScp : String → String)
      (header : String) (fuel : Nat) (tree : List TreeEntry) (scopes : List String)
      (manual : Except String String),
      ((mainModel printPkg printScp header fuel tree scopes manual).2.isSome →
        (mainModel printPkg printScp header fuel tree scopes manual).1 = []) ∧
      ((mainModel printPkg printScp header fuel tree scopes manual).2 = none →
        ∃ doc, (mainModel printPkg printScp header fuel tree scopes manual).1 = [doc]) := by
  intro printPkg printScp header fuel tree scopes manual
  unfold mainModel
  cases hscan : scanTree tree with
  | error p => simp
  | ok pkgs =>
    dsimp only
    rcases hflat : flattenAll pkgs fuel pkgs with e | resolved <;> simp [hflat]

/-- Witness for C8: a malformed metadata file yields an error and no
write. -/
theorem c8_witness :
    ((mainModel (fun _ _ => "") (fun _ => "") "" 1
        [{ path := "node_modules/x", json := none }] [] (.error "e")).2.isSome) ∧
    (mainModel (fun _ _ => "") (fun _ => "") "" 1
        [{ path := "node_modules/x", json := none }] [] (.error "e")).1 = [] :=
  ⟨rfl,
    (c8_all_or_nothing (fun _ _ => "") (fun _ => "") "" 1
        [{ path := "node_modules/x", json := none }] [] (.error "e")).1 rfl⟩

/-- C9: a resolution run started from an empty accumulator records the
visited package itself first, before any of its dependencies. -/
theorem c9_self_first :
    ∀ (idx : List Package) (fuel : Nat) (pkg : Package) (r : List Package),
      flattenDependencies idx fuel [] pkg = .ok r → r.head? = some pkg := by
  intro idx fuel pkg r h
  obtain ⟨rest, hr⟩ := flattenDependencies_ok_cons idx fuel pkg r h
  rw [hr]
  rfl

/-- Witness for C9: the concrete cycle run for B starts with B. -/
theorem c9_witness :
    flattenDependencies cycIdx 20 [] cycB = .ok [cycB, cycA] ∧
    [cycB, cycA].head? = some cycB :=
  ⟨rfl, c9_self_first cycIdx 20 cycB [cycB, cycA] rfl⟩

/-- C10: every failure of the manual-fragment read, whatever its payload,
is swallowed: the document is written without the fragment and without the
blank-line separator, and the run's outcome does not depend on which read
error occurred, while a successful read appends separator and fragment. -/
theorem c10_manual_fragment :
    ∀ (printPkg : Package → List Package → String) (printScp : String → String)
      (header : String) (resolved : List (Package × List Package)) (scopes : List String)
      (fuel : Nat) (tree : List TreeEntry) (e1 e2 m : String),
      buildDocument printPkg printScp header resolved scopes (.error e1) =
        buildDocumentBase printPkg printScp header resolved scopes ∧
      buildDocument printPkg printScp header resolved scopes (.ok m) =
        buildDocumentBase printPkg printScp header resolved scopes ++ "\n\n" ++ m ∧
      mainModel printPkg printScp header fuel tree scopes (.error e1) =
        mainModel printPkg printScp header fuel tree scopes (.error e2) := by
  intro printPkg printScp header resolved scopes fuel tree e1 e2 m
  refine ⟨rfl, rfl, ?_⟩
  unfold mainModel
  cases hscan : scanTree tree with
  | error p => rfl
  | ok pkgs =>
    cases hflat : flattenAll pkgs fuel pkgs with
    | error e => rfl
    | ok resolved2 => rfl

end GenerateBuildFile
